import Mathlib

/-!
Shallow embedding of the crypto-replay repository: the chart coordinate
mapper, derived-series computations (EMA, Monday bands), the replay
controller, the client-side annotation mutations, and the backend
backfill sync engine and drawing-update endpoint.  Times are milliseconds
(`ℤ`), prices and logical indices are `ℚ`; JavaScript numbers that may be
non-finite are modelled by `JsNumber`.
-/

namespace CryptoReplay

/-- Chart interval enumeration, `Interval` in `types.ts` / `App.tsx`. -/
inductive Interval where
  | i5m | i15m | i1h | i4h | i1D | i1W | i1M
deriving DecidableEq, Repr

/-- Fixed millisecond duration of each interval (`INTERVAL_MS` in `App.tsx`,
`intervalMsMap` in `binance.ts` — identical tables). -/
def intervalMs : Interval → ℤ
  | .i5m => 5 * 60 * 1000
  | .i15m => 15 * 60 * 1000
  | .i1h => 60 * 60 * 1000
  | .i4h => 4 * 60 * 60 * 1000
  | .i1D => 24 * 60 * 60 * 1000
  | .i1W => 7 * 24 * 60 * 60 * 1000
  | .i1M => 30 * 24 * 60 * 60 * 1000

/-- A persisted candle bar (`Candle` in `types.ts`). -/
structure Candle where
  symbol : String
  interval : Interval
  openTime : ℤ
  closeTime : ℤ
  open_ : ℚ
  high : ℚ
  low : ℚ
  close : ℚ
  volume : ℚ
deriving DecidableEq, Repr

/-- Placeholder candle used only behind bounds-checked list accesses. -/
def defaultCandle : Candle :=
  ⟨"", .i5m, 0, 0, 0, 0, 0, 0, 0⟩

/-- A JavaScript number: either a finite value (modelled as a rational) or a
non-finite value (`NaN`, `Infinity`), which `Number.isFinite` rejects. -/
inductive JsNumber where
  | fin (val : ℚ)
  | nonfin
deriving DecidableEq, Repr

/-- `Math.round`: rounds half toward positive infinity. -/
def jsRound (x : ℚ) : ℤ := ⌊x + 1 / 2⌋

/-- Client chart state that the coordinate mapper reads: the loaded candle
array, the selected interval, and the replay cursor (`currentReplayIndex`). -/
structure ChartState where
  interval : Interval
  candles : List Candle
  currentReplayIndex : Option ℕ
deriving DecidableEq, Repr

/-- `displayedCandles` memo in `App.tsx`: the full loaded series, or the
prefix `candles.slice(0, currentReplayIndex + 1)` while replay is set. -/
def displayedCandles (st : ChartState) : List Candle :=
  match st.currentReplayIndex with
  | none => st.candles
  | some i => st.candles.take (i + 1)

/-- Loop body of `nearestCandleIndex`: scan remaining candles, tracking the
best index and its absolute time difference (strict improvement only). -/
def nearestAux (target : ℚ) : List Candle → ℕ → ℕ → ℚ → ℕ
  | [], _, best, _ => best
  | c :: rest, i, best, bestDiff =>
    let diff := |(c.openTime : ℚ) - target|
    if diff < bestDiff then nearestAux target rest (i + 1) i diff
    else nearestAux target rest (i + 1) best bestDiff

/-- `nearestCandleIndex` in `App.tsx`: index of the candle whose openTime is
nearest to the target (first wins on ties), `-1` on an empty list. -/
def nearestCandleIndex (candles : List Candle) (target : ℚ) : ℤ :=
  match candles with
  | [] => -1
  | c :: rest => nearestAux target rest 1 0 |(c.openTime : ℚ) - target|

/-- `logicalToTimeMs` in `App.tsx`: a (rounded) logical index inside the
loaded array maps to that candle's openTime; outside, extrapolate linearly
from the displayed series using the interval step. -/
def logicalToTimeMs (st : ChartState) (logical : JsNumber) : Option ℚ :=
  match logical with
  | .nonfin => none
  | .fin l =>
    let rounded : ℤ := jsRound l
    let stepMs : ℚ := intervalMs st.interval
    if 0 < st.candles.length ∧ 0 ≤ rounded ∧ rounded < (st.candles.length : ℤ) then
      some ((st.candles.getD rounded.toNat defaultCandle).openTime : ℚ)
    else
      let ds := displayedCandles st
      if ds.length = 0 then none
      else
        let first : ℚ := (ds.headD defaultCandle).openTime
        let lastDisplayed : ℚ := (ds.getLastD defaultCandle).openTime
        if rounded < 0 then some (first + (rounded : ℚ) * stepMs)
        else some (lastDisplayed + ((rounded : ℚ) - ((ds.length : ℚ) - 1)) * stepMs)

/-- `timeMsToLogical` in `App.tsx`: none on an empty series or non-finite
input; extrapolate by step outside the loaded range; otherwise the nearest
candle index. -/
def timeMsToLogical (st : ChartState) (timeMs : JsNumber) : Option ℚ :=
  match timeMs with
  | .nonfin => none
  | .fin t =>
    if st.candles.length = 0 then none
    else
      let stepMs : ℚ := intervalMs st.interval
      let firstTime : ℚ := (st.candles.headD defaultCandle).openTime
      let lastTime : ℚ := (st.candles.getLastD defaultCandle).openTime
      if t ≤ firstTime then some ((t - firstTime) / stepMs)
      else if lastTime ≤ t then
        some ((st.candles.length : ℚ) - 1 + (t - lastTime) / stepMs)
      else
        let idx := nearestCandleIndex st.candles t
        if 0 ≤ idx then some ((idx : ℚ)) else none

/-- Sample candle at a given openTime, for concrete-state theorems. -/
def mkCandle (t : ℤ) : Candle :=
  ⟨"BTCUSDT", Interval.i5m, t, t + 300000 - 1, 1, 2, 1, 1, 0⟩

/-- Chart state with a gap in the candle data and an active replay
truncation (currentReplayIndex = 1). -/
def gapReplayState : ChartState :=
  ⟨Interval.i5m, [mkCandle 0, mkCandle 300000, mkCandle 30000000], some 1⟩

/-- UTC weekday of a millisecond timestamp (0 = Sunday … 6 = Saturday), as
`new Date(ms).getUTCDay()`: the Unix epoch fell on a Thursday (4). -/
def utcDay (timeMs : ℤ) : ℤ := (Int.fdiv timeMs 86400000 + 4) % 7

/-- `startOfUtcMonday` in `App.tsx`: midnight of the most recent UTC Monday,
via the `(weekday + 6) % 7` day offset. -/
def startOfUtcMonday (timeMs : ℤ) : ℤ :=
  let dayFloor := Int.fdiv timeMs 86400000
  let day := (dayFloor + 4) % 7
  let diffToMonday := (day + 6) % 7
  (dayFloor - diffToMonday) * 86400000

/-- Monday filter used inside `mondayRanges`: UTC weekday equals 1. -/
def isMondayCandle (c : Candle) : Bool := utcDay c.openTime == 1

/-- Derived weekly Monday high/low band (`MondayRange` in `App.tsx`). -/
structure MondayRange where
  weekStartMs : ℤ
  weekEndMs : ℤ
  mondayHigh : ℚ
  mondayLow : ℚ
deriving DecidableEq, Repr

/-- Insertion-ordered grouping step mirroring the `Map` population loop in
the `mondayRanges` memo: append to an existing bucket or add a new key at
the end. -/
def insertInto : List (ℤ × List Candle) → ℤ → Candle → List (ℤ × List Candle)
  | [], k, c => [(k, [c])]
  | (k2, b) :: rest, k, c =>
    if k2 = k then (k2, b ++ [c]) :: rest
    else (k2, b) :: insertInto rest k c

/-- Group displayed candles by their week start, in insertion order. -/
def groupCandles (l : List Candle) : List (ℤ × List Candle) :=
  l.foldl (fun g c => insertInto g (startOfUtcMonday c.openTime) c) []

/-- Bucket stored under a week-start key (empty when the key is absent). -/
def bucketOf (g : List (ℤ × List Candle)) (w : ℤ) : List Candle :=
  ((g.find? (fun p => p.1 == w)).map Prod.snd).getD []

/-- Keys of a grouping, in order. -/
def keysOf (g : List (ℤ × List Candle)) : List ℤ := g.map Prod.fst

/-- `mondayRanges` memo in `App.tsx`: group displayed candles by ISO-UTC
week, keep weeks with Monday candles, take max high / min low over the
Monday candles only, span one week minus a step, and sort by week start. -/
def mondayRanges (st : ChartState) : List MondayRange :=
  let ds := displayedCandles st
  if ds.length = 0 then []
  else
    let stepMs := intervalMs st.interval
    let oneWeekMs : ℤ := 7 * 24 * 60 * 60 * 1000
    let ranges := (groupCandles ds).filterMap (fun p =>
      let mondayCandles := p.2.filter isMondayCandle
      match mondayCandles with
      | [] => none
      | m0 :: _ =>
        some (⟨p.1, p.1 + oneWeekMs - stepMs,
          mondayCandles.foldl (fun a c => max a c.high) m0.high,
          mondayCandles.foldl (fun a c => min a c.low) m0.low⟩ : MondayRange))
    ranges.mergeSort (fun a b => decide (a.weekStartMs ≤ b.weekStartMs))

/-- Spec-side description of the candles a Monday band ranges over: the
displayed candles of week w whose UTC weekday is Monday. -/
def mondayCandlesOfWeek (st : ChartState) (w : ℤ) : List Candle :=
  (displayedCandles st).filter
    (fun c => isMondayCandle c && (startOfUtcMonday c.openTime == w))

/-- One-candle state whose candle falls on UTC Monday 1970-01-05. -/
def mondaySt : ChartState := ⟨Interval.i1h, [mkCandle 345600000], none⟩

/-- `toUtcTimestamp` in `App.tsx`: `Math.floor(ms / 1000)`. -/
def toUtcTimestamp (ms : ℤ) : ℤ := Int.fdiv ms 1000

/-- A chart line point as pushed by `computeEma` (`LineData`). -/
structure LinePoint where
  time : ℤ
  value : ℚ
deriving DecidableEq, Repr

/-- `Number(x.toFixed(4))`: round to 4 decimal places, ties toward the
larger value, as specified for `toFixed`. -/
def toFixed4 (x : ℚ) : ℚ := (⌊x * 10000 + 1 / 2⌋ : ℚ) / 10000

/-- Loop body of `computeEma`: starting from the running average, apply
`ema = (close - ema) * multiplier + ema` per candle and push the rounded
value (the running average itself stays unrounded). -/
def emaLoop (m : ℚ) : ℚ → List Candle → List LinePoint
  | _, [] => []
  | ema, c :: rest =>
    let e := (c.close - ema) * m + ema
    ⟨toUtcTimestamp c.openTime, toFixed4 e⟩ :: emaLoop m e rest

/-- `computeEma` in `App.tsx`: empty on an empty series or non-positive
period; otherwise seed with the first close and run the EMA recurrence
with multiplier `2 / (period + 1)`. -/
def computeEma (candles : List Candle) (period : ℤ) : List LinePoint :=
  match candles with
  | [] => []
  | c :: _ =>
    if period ≤ 0 then []
    else emaLoop (2 / ((period : ℚ) + 1)) c.close candles

/-- Candle whose close has more than 4 decimal places. -/
def fineCloseCandle : Candle :=
  ⟨"BTCUSDT", Interval.i5m, 0, 299999, 0, 0, 0, 123456 / 1000000, 0⟩

/-- Timer delay of the replay effect: `Math.max(80, Math.floor(1000 / speed))`. -/
def tickIntervalMs (speed : ℤ) : ℤ := max 80 (Int.fdiv 1000 speed)

/-- Replay controller state (`speed`, `replayStartIndex`, `currentReplayIndex`,
`replayRunning` in `App.tsx`). -/
structure ReplayState where
  replayStartIndex : Option ℕ
  currentReplayIndex : Option ℕ
  replayRunning : Bool
  speed : ℤ
deriving DecidableEq, Repr

/-- Initial replay state (`useState` defaults: speed 2, nothing set). -/
def initialReplayState : ReplayState := ⟨none, none, false, 2⟩

/-- One timer tick of the replay effect: active only while running with a
current index; at or past the last index it pauses without advancing,
otherwise it advances by one. -/
def replayTick (len : ℕ) (s : ReplayState) : ReplayState :=
  if s.replayRunning then
    match s.currentReplayIndex with
    | none => s
    | some prev =>
      if len - 1 ≤ prev then { s with replayRunning := false }
      else { s with currentReplayIndex := some (prev + 1) }
  else s

/-- `onStartReplay`: no-op without a start index; otherwise initialize the
current index when unset and start running. -/
def onStartReplay (s : ReplayState) : ReplayState :=
  match s.replayStartIndex with
  | none => s
  | some start =>
    match s.currentReplayIndex with
    | none => { s with currentReplayIndex := some start, replayRunning := true }
    | some _ => { s with replayRunning := true }

/-- `onPauseReplay` (restricted to replay state; it also resets the drawing
tool, which lives outside this structure). -/
def onPauseReplay (s : ReplayState) : ReplayState := { s with replayRunning := false }

/-- `onResetReplay` (restricted to replay state). -/
def onResetReplay (s : ReplayState) : ReplayState :=
  { s with replayRunning := false, currentReplayIndex := none, replayStartIndex := none }

/-- The `replay-start` click branch of `onCanvasClick`: set the start index,
clear the current index, stop running. -/
def setReplayStart (s : ReplayState) (idx : ℕ) : ReplayState :=
  { s with replayStartIndex := some idx, currentReplayIndex := none, replayRunning := false }

/-- `setSpeed` from the speed selector. -/
def setSpeed (s : ReplayState) (sp : ℤ) : ReplayState := { s with speed := sp }

/-- Replay states reachable from the initial state through the controller
operations; `setStart` only receives indices of existing candles, as
`nearestCandleIndex` returns an in-range index. -/
inductive ReachableReplay (len : ℕ) : ReplayState → Prop where
  | init : ReachableReplay len initialReplayState
  | tick {s} : ReachableReplay len s → ReachableReplay len (replayTick len s)
  | start {s} : ReachableReplay len s → ReachableReplay len (onStartReplay s)
  | pause {s} : ReachableReplay len s → ReachableReplay len (onPauseReplay s)
  | reset {s} : ReachableReplay len s → ReachableReplay len (onResetReplay s)
  | setStart {s} (idx : ℕ) (h : idx < len) :
      ReachableReplay len s → ReachableReplay len (setReplayStart s idx)
  | speed {s} (sp : ℤ) : ReachableReplay len s → ReachableReplay len (setSpeed s sp)

/-- A drawing anchor point (`DrawingPoint` in `App.tsx`): time in ms and a
price, both arbitrary chart-resolved numbers. -/
structure DrawingPoint where
  time : ℚ
  price : ℚ
deriving DecidableEq, Repr

/-- Drawing tool / annotation variants (`type` union in `types.ts`). -/
inductive DrawingType where
  | hline | rect | fibo | pricerange | longpos | shortpos
deriving DecidableEq, Repr

/-- A persisted drawing as held by the client (`Drawing` in `App.tsx`).
Style values are modelled as strings, since the mutations under study only
copy and merge them. -/
structure Drawing where
  id : ℤ
  symbol : String
  type : DrawingType
  points : List DrawingPoint
  style : List (String × String)
  created_at : String
  updated_at : String
deriving DecidableEq, Repr

/-- Placeholder point behind bounds-checked accesses. -/
def defaultDrawingPoint : DrawingPoint := ⟨0, 0⟩

/-- `PositionHandle` in `App.tsx`: the three drag handles of a selected
long/short position. -/
inductive PositionHandle where
  | tp | sl | time
deriving DecidableEq, Repr

/-- Point update applied by the drag branch of `onCanvasMove`: tp replaces
only the third point's price, sl only the second point's price, and the
time handle sets the fourth point's time to
`max(entryTime + intervalStep, pointerTime)`. -/
def dragPositionPoints (iv : Interval) (handle : PositionHandle)
    (points : List DrawingPoint) (dragPoint : DrawingPoint) : List DrawingPoint :=
  match handle with
  | .tp => points.set 2 ⟨(points.getD 2 defaultDrawingPoint).time, dragPoint.price⟩
  | .sl => points.set 1 ⟨(points.getD 1 defaultDrawingPoint).time, dragPoint.price⟩
  | .time =>
    let minTime := (points.getD 0 defaultDrawingPoint).time + (intervalMs iv : ℚ)
    points.set 3 ⟨max minTime dragPoint.time, (points.getD 3 defaultDrawingPoint).price⟩

/-- Drag branch of `onCanvasMove`: for a selected long/short position with
at least 4 points, replace the selected drawing's points in the collection
with the dragged update (no persistence happens during the move). -/
def onCanvasMoveDrag (iv : Interval) (handle : PositionHandle)
    (drawings : List Drawing) (selected : Drawing) (dragPoint : DrawingPoint) :
    List Drawing :=
  if selected.type = DrawingType.longpos ∨ selected.type = DrawingType.shortpos then
    if selected.points.length < 4 then drawings
    else
      let nextPoints := dragPositionPoints iv handle selected.points dragPoint
      drawings.map (fun d =>
        if d.id == selected.id then { d with points := nextPoints } else d)
  else drawings

/-- Concrete long position used by witnesses. -/
def posDrawing : Drawing :=
  ⟨1, "BTCUSDT", DrawingType.longpos,
    [⟨0, 100⟩, ⟨0, 99⟩, ⟨0, 101⟩, ⟨12000000, 100⟩], [], "", ""⟩

/-- JavaScript object-spread merge `{ ...base, ...patch }` on string-valued
style bags: base keys keep their order with patched values; new patch keys
follow. -/
def jsMergeStyle (base patch : List (String × String)) : List (String × String) :=
  (base.map (fun kv =>
    match patch.find? (fun p => p.1 == kv.1) with
    | some p => (kv.1, p.2)
    | none => kv)) ++
  patch.filter (fun p => ¬ base.any (fun kv => kv.1 == p.1))

/-- `saveDrawing` in `App.tsx`, viewed at its completion: the POST is
awaited first, so on a transport error the collection is untouched; on
success the returned row is appended. -/
def saveDrawingClient (drawings : List Drawing)
    (postResult : Except Unit Drawing) : List Drawing :=
  match postResult with
  | .error _ => drawings
  | .ok created => drawings ++ [created]

/-- `updateSelectedDrawingStyle` in `App.tsx`, viewed at its completion:
the collection is rewritten before the PUT is awaited, so the outcome of
the persistence call does not affect the local copy (both match arms agree). -/
def updateSelectedDrawingStyleClient (drawings : List Drawing) (selected : Drawing)
    (patch : List (String × String)) (putResult : Except Unit Unit) : List Drawing :=
  let nextStyle := jsMergeStyle selected.style patch
  let updated := drawings.map (fun d =>
    if d.id == selected.id then { d with style := nextStyle } else d)
  match putResult with
  | .ok _ => updated
  | .error _ => updated

/-- Drag-edit of a position's points viewed across `onCanvasMove` and
`onCanvasMouseUp`: the collection is rewritten during the move, the PUT
fires only on mouse-up, so the persistence outcome does not affect the
local copy (both match arms agree). -/
def dragPointsMutationClient (iv : Interval) (handle : PositionHandle)
    (drawings : List Drawing) (selected : Drawing) (dragPoint : DrawingPoint)
    (putResult : Except Unit Unit) : List Drawing :=
  let moved := onCanvasMoveDrag iv handle drawings selected dragPoint
  match putResult with
  | .ok _ => moved
  | .error _ => moved

/-- `onDeleteDrawing` in `App.tsx`, viewed at its completion: the DELETE is
awaited first, so on a transport error the collection is untouched; on
success the row is filtered out. -/
def onDeleteDrawingClient (drawings : List Drawing) (id : ℤ)
    (deleteResult : Except Unit Unit) : List Drawing :=
  match deleteResult with
  | .error _ => drawings
  | .ok _ => drawings.filter (fun d => d.id != id)

/-- Drawing with an empty style bag, used by the C2 counterexample. -/
def plainHline : Drawing :=
  ⟨7, "BTCUSDT", DrawingType.hline, [⟨0, 100⟩], [], "", ""⟩

/-- A drawings-table row as the backend sees it. -/
structure DrawingRow where
  id : ℤ
  symbol : String
  type : DrawingType
  points : List DrawingPoint
  style : List (String × String)
  createdAt : ℤ
  updatedAt : ℤ
deriving DecidableEq, Repr

/-- Body of a PUT /api/drawings/:id request after `drawingsSchema.partial()`
validation: every field optional. -/
structure DrawingPatch where
  symbol : Option String
  type : Option DrawingType
  points : Option (List DrawingPoint)
  style : Option (List (String × String))
deriving DecidableEq, Repr

/-- JavaScript truthiness test used by the handler on each parsed field:
a missing field is falsy, and so is an empty symbol string; a present
type/points/style is always truthy. -/
def patchIsEmpty (patch : DrawingPatch) : Bool :=
  (match patch.type with | some _ => false | none => true) &&
  (match patch.points with | some _ => false | none => true) &&
  (match patch.style with | some _ => false | none => true) &&
  (match patch.symbol with | some s => s == "" | none => true)

/-- The SET clauses applied to a matching row: each truthy field overwrites
the column, and `updated_at` is always bumped. -/
def applyPatch (r : DrawingRow) (patch : DrawingPatch) (now : ℤ) : DrawingRow :=
  let r1 := match patch.type with
    | some t => { r with type := t }
    | none => r
  let r2 := match patch.points with
    | some ps => { r1 with points := ps }
    | none => r1
  let r3 := match patch.style with
    | some s => { r2 with style := s }
    | none => r2
  let r4 := match patch.symbol with
    | some s => if s == "" then r3 else { r3 with symbol := s }
    | none => r3
  { r4 with updatedAt := now }

/-- PUT /api/drawings/:id handler: 400 on an empty SET list, 404 when no
row has the id, otherwise update the matching row and return it. -/
def updateDrawingHandler (db : List DrawingRow) (id : ℤ) (patch : DrawingPatch)
    (now : ℤ) : Except ℕ (List DrawingRow × DrawingRow) :=
  if patchIsEmpty patch then Except.error 400
  else
    match db.find? (fun r => r.id == id) with
    | none => Except.error 404
    | some r =>
      Except.ok
        (db.map (fun row => if row.id == id then applyPatch row patch now else row),
          applyPatch r patch now)

/-- A stored rectangle used by the C3 counterexample. -/
def rectRow : DrawingRow :=
  ⟨3, "BTCUSDT", DrawingType.rect, [⟨0, 100⟩, ⟨600000, 200⟩], [], 0, 0⟩

/-- The external market-data collaborator (`fetchKlines` in `binance.ts`),
modelled through its contract: given the full ascending upstream bar list,
return the bars whose openTime lies in [startTime, endTime], capped at
`limit`. -/
def fetchKlines (upstream : List Candle) (startTime endTime : ℤ) (limit : ℕ) :
    List Candle :=
  (upstream.filter (fun c =>
    decide (startTime ≤ c.openTime) && decide (c.openTime ≤ endTime))).take limit

/-- `INSERT … ON CONFLICT (symbol, interval, open_time) DO NOTHING`:
append the bar unless a row with the same key exists. -/
def upsertIgnore (db : List Candle) (c : Candle) : List Candle :=
  if db.any (fun r =>
      r.symbol == c.symbol && r.interval == c.interval && r.openTime == c.openTime)
  then db else db ++ [c]

/-- The fetch loop of the POST /api/sync handler: while the cursor is before
`now`, fetch a page of up to 1000 bars from the cursor, upsert each bar
ignoring duplicate keys, add the whole page length to `inserted`, advance
the cursor to the last fetched bar's openTime plus one interval step, and
stop on an empty page, a short page, or a cursor at/past now.  The
recursion is well-founded: each full page moves the cursor past at least
one upstream bar. -/
def syncLoop (upstream : List Candle) (now : ℤ) (i : Interval)
    (cursor : ℤ) (db : List Candle) (inserted : ℕ) : List Candle × ℕ :=
  if cursor < now then
    let batch := fetchKlines upstream cursor now 1000
    if hb : batch = [] then (db, inserted)
    else
      let db2 := batch.foldl upsertIgnore db
      let inserted2 := inserted + batch.length
      let cursor2 := (batch.getLast hb).openTime + intervalMs i
      if batch.length < 1000 then (db2, inserted2)
      else syncLoop upstream now i cursor2 db2 inserted2
  else (db, inserted)
termination_by (upstream.filter (fun c => decide (cursor ≤ c.openTime))).length
decreasing_by
  have hstep : 0 < intervalMs i := by cases i <;> decide
  have hle : ∀ (l : List Candle) (p q : Candle → Bool),
      (∀ a, q a = true → p a = true) →
      (l.filter q).length ≤ (l.filter p).length := by
    intro l p q himp
    induction l with
    | nil => simp
    | cons a l ih =>
      rw [List.filter_cons, List.filter_cons]
      cases hq : q a with
      | false =>
        cases p a with
        | false => simpa using ih
        | true =>
          simp
          omega
      | true =>
        have hp := himp a hq
        rw [hp]
        simp
        exact ih
  have hmemb : (fetchKlines upstream cursor now 1000).getLast hb ∈
      fetchKlines upstream cursor now 1000 := List.getLast_mem hb
  have hmemf : (fetchKlines upstream cursor now 1000).getLast hb ∈
      upstream.filter (fun c =>
        decide (cursor ≤ c.openTime) && decide (c.openTime ≤ now)) :=
    List.take_subset _ _ hmemb
  have hmemu : (fetchKlines upstream cursor now 1000).getLast hb ∈ upstream :=
    List.mem_of_mem_filter hmemf
  have hcl : cursor ≤ ((fetchKlines upstream cursor now 1000).getLast hb).openTime := by
    have h2 := (List.mem_filter.mp hmemf).2
    simp only [Bool.and_eq_true, decide_eq_true_eq] at h2
    exact h2.1
  have key : ∀ (l : List Candle) (p q : Candle → Bool),
      (∀ a, q a = true → p a = true) →
      ∀ x ∈ l, p x = true → q x = false →
      (l.filter q).length < (l.filter p).length := by
    intro l p q himp x hx hpx hqx
    induction l with
    | nil => cases hx
    | cons a l ih =>
      rw [List.filter_cons, List.filter_cons]
      rcases List.mem_cons.mp hx with rfl | hmem
      · rw [hqx, hpx]
        simp
        exact Nat.lt_succ_of_le (hle l p q himp)
      · cases hq : q a with
        | false =>
          cases p a with
          | false =>
            simp
            exact ih hmem
          | true =>
            simp
            have := ih hmem
            omega
        | true =>
          have hp := himp a hq
          rw [hp]
          simp
          exact ih hmem
  apply key upstream _ _
    (fun a ha => by
      simp only [decide_eq_true_eq] at ha ⊢
      omega)
    ((fetchKlines upstream cursor now 1000).getLast hb) hmemu
  · simp only [decide_eq_true_eq]
    exact hcl
  · simp only [decide_eq_false_iff_not, not_le]
    omega

/-- Cursor initialization of the sync handler: `MAX(open_time)` over the
(symbol, interval) rows, 0 when there are none; two years back by default,
else one step before the last persisted bar (clamped to two years back). -/
def initialCursor (db : List Candle) (now : ℤ) (symbol : String) (i : Interval) : ℤ :=
  let matching := (db.filter (fun c => c.symbol == symbol && c.interval == i)).map
    Candle.openTime
  let maxOpenTime : ℤ := match matching.max? with | some m => m | none => 0
  let twoYearsAgo := now - 2 * 365 * 24 * 60 * 60 * 1000
  if 0 < maxOpenTime then max twoYearsAgo (maxOpenTime - intervalMs i) else twoYearsAgo

/-- POST /api/sync handler: compute the initial cursor from the persisted
rows, then run the fetch loop starting from an inserted count of 0. -/
def syncHandler (db : List Candle) (upstream : List Candle) (now : ℤ)
    (symbol : String) (i : Interval) : List Candle × ℕ :=
  syncLoop upstream now i (initialCursor db now symbol i) db 0

/-- Two upstream bars one step apart, both older than `now = 1000000`. -/
def syncUpstream2 : List Candle := [mkCandle 300000, mkCandle 600000]

theorem intervalMs_pos (i : Interval) : 0 < intervalMs i := by
  cases i <;> decide

theorem abs_jsRound_sub_le (x : ℚ) : |(jsRound x : ℚ) - x| ≤ 1 / 2 := by
  have h1 : ((jsRound x : ℚ)) ≤ x + 1 / 2 := Int.floor_le (x + 1 / 2)
  have h2 : x + 1 / 2 < (jsRound x : ℚ) + 1 := Int.lt_floor_add_one (x + 1 / 2)
  rw [abs_sub_le_iff]
  constructor <;> linarith

theorem getD_zero_eq_headD (l : List Candle) (d : Candle) : l.getD 0 d = l.headD d := by
  cases l <;> rfl

theorem getD_pred_length_eq_getLastD (l : List Candle) (d : Candle) :
    l.getD (l.length - 1) d = l.getLastD d := by
  rw [List.getD_eq_getElem?_getD, List.getLastD_eq_getLast?, List.getLast?_eq_getElem?]

theorem displayedCandles_of_none (st : ChartState) (h : st.currentReplayIndex = none) :
    displayedCandles st = st.candles := by
  simp [displayedCandles, h]

/-- C9: with zero candles loaded, and on any non-finite input, both mapping
functions return none rather than a default value. -/
theorem mapping_none_on_empty_or_nonfinite (st : ChartState) (x : JsNumber)
    (hempty : st.candles = []) :
    timeMsToLogical st x = none ∧ logicalToTimeMs st x = none ∧
    timeMsToLogical st JsNumber.nonfin = none ∧
    logicalToTimeMs st JsNumber.nonfin = none := by
  have hds : displayedCandles st = [] := by
    cases h : st.currentReplayIndex <;> simp [displayedCandles, h, hempty]
  refine ⟨?_, ?_, rfl, rfl⟩
  · cases x with
    | nonfin => rfl
    | fin t => simp [timeMsToLogical, hempty]
  · cases x with
    | nonfin => rfl
    | fin l => simp [logicalToTimeMs, hempty, hds]

/-- C9 witness. -/
theorem mapping_none_on_empty_or_nonfinite_witness :
    timeMsToLogical ⟨Interval.i5m, [], none⟩ (JsNumber.fin 0) = none ∧
    logicalToTimeMs ⟨Interval.i5m, [], none⟩ (JsNumber.fin 0) = none ∧
    timeMsToLogical ⟨Interval.i5m, [], none⟩ JsNumber.nonfin = none ∧
    logicalToTimeMs ⟨Interval.i5m, [], none⟩ JsNumber.nonfin = none :=
  mapping_none_on_empty_or_nonfinite ⟨Interval.i5m, [], none⟩ (JsNumber.fin 0) rfl

theorem logicalToTimeMs_in_range (st : ChartState) (l : ℚ)
    (h1 : 0 < st.candles.length) (h2 : 0 ≤ jsRound l)
    (h3 : jsRound l < (st.candles.length : ℤ)) :
    logicalToTimeMs st (JsNumber.fin l) =
      some ((st.candles.getD (jsRound l).toNat defaultCandle).openTime : ℚ) := by
  simp only [logicalToTimeMs]
  rw [if_pos ⟨h1, h2, h3⟩]

theorem logicalToTimeMs_neg (st : ChartState) (l : ℚ)
    (hguard : ¬(0 < st.candles.length ∧ 0 ≤ jsRound l ∧ jsRound l < (st.candles.length : ℤ)))
    (hds : (displayedCandles st).length ≠ 0) (hneg : jsRound l < 0) :
    logicalToTimeMs st (JsNumber.fin l) =
      some ((((displayedCandles st).headD defaultCandle).openTime : ℚ) +
        (jsRound l : ℚ) * (intervalMs st.interval : ℚ)) := by
  simp only [logicalToTimeMs]
  rw [if_neg hguard, if_neg hds, if_pos hneg]

theorem logicalToTimeMs_beyond (st : ChartState) (l : ℚ)
    (hguard : ¬(0 < st.candles.length ∧ 0 ≤ jsRound l ∧ jsRound l < (st.candles.length : ℤ)))
    (hds : (displayedCandles st).length ≠ 0) (hnn : ¬ jsRound l < 0) :
    logicalToTimeMs st (JsNumber.fin l) =
      some ((((displayedCandles st).getLastD defaultCandle).openTime : ℚ) +
        ((jsRound l : ℚ) - (((displayedCandles st).length : ℚ) - 1)) *
          (intervalMs st.interval : ℚ)) := by
  simp only [logicalToTimeMs]
  rw [if_neg hguard, if_neg hds, if_neg hnn]

theorem timeMsToLogical_le_first (st : ChartState) (t : ℚ)
    (hne : ¬ st.candles.length = 0)
    (h : t ≤ ((st.candles.headD defaultCandle).openTime : ℚ)) :
    timeMsToLogical st (JsNumber.fin t) =
      some ((t - ((st.candles.headD defaultCandle).openTime : ℚ)) /
        (intervalMs st.interval : ℚ)) := by
  simp only [timeMsToLogical]
  rw [if_neg hne, if_pos h]

theorem timeMsToLogical_ge_last (st : ChartState) (t : ℚ)
    (hne : ¬ st.candles.length = 0)
    (h1 : ¬ t ≤ ((st.candles.headD defaultCandle).openTime : ℚ))
    (h2 : ((st.candles.getLastD defaultCandle).openTime : ℚ) ≤ t) :
    timeMsToLogical st (JsNumber.fin t) =
      some ((st.candles.length : ℚ) - 1 +
        (t - ((st.candles.getLastD defaultCandle).openTime : ℚ)) /
          (intervalMs st.interval : ℚ)) := by
  simp only [timeMsToLogical]
  rw [if_neg hne, if_neg h1, if_pos h2]

theorem abs_mul_step_le (a l step : ℚ) (h : |a - l| ≤ 1 / 2) (hstep : 0 < step) :
    |(a - l) * step| ≤ step := by
  rw [abs_mul, abs_of_pos hstep]
  nlinarith [abs_nonneg (a - l)]

/-- C4 (amended): when no replay truncation is active, the round trip through
timeMsToLogical and logicalToTimeMs lands within one interval step of the
input, for any t at/before the first or at/after the last loaded candle. -/
theorem roundtrip_within_step (st : ChartState) (t : ℚ)
    (hnone : st.currentReplayIndex = none)
    (hne : st.candles ≠ [])
    (hdom : t ≤ ((st.candles.headD defaultCandle).openTime : ℚ) ∨
            ((st.candles.getLastD defaultCandle).openTime : ℚ) ≤ t) :
    ∃ l r, timeMsToLogical st (JsNumber.fin t) = some l ∧
      logicalToTimeMs st (JsNumber.fin l) = some r ∧
      |r - t| ≤ (intervalMs st.interval : ℚ) := by
  have hlen : ¬ st.candles.length = 0 := by
    simpa [List.length_eq_zero] using hne
  have hpos : 0 < st.candles.length := Nat.pos_of_ne_zero hlen
  have hstep : (0 : ℚ) < (intervalMs st.interval : ℚ) := by
    exact_mod_cast intervalMs_pos st.interval
  have hds : displayedCandles st = st.candles := displayedCandles_of_none st hnone
  have hdsne : (displayedCandles st).length ≠ 0 := by rw [hds]; exact hlen
  by_cases ht1 : t ≤ ((st.candles.headD defaultCandle).openTime : ℚ)
  · refine ⟨(t - ((st.candles.headD defaultCandle).openTime : ℚ)) /
      (intervalMs st.interval : ℚ), ?_⟩
    have hltl := timeMsToLogical_le_first st t hlen ht1
    generalize hl : (t - ((st.candles.headD defaultCandle).openTime : ℚ)) /
      (intervalMs st.interval : ℚ) = l at hltl ⊢
    have hts : l * (intervalMs st.interval : ℚ) =
        t - ((st.candles.headD defaultCandle).openTime : ℚ) := by
      rw [← hl]; exact div_mul_cancel₀ _ (ne_of_gt hstep)
    have habs : |(jsRound l : ℚ) - l| ≤ 1 / 2 := abs_jsRound_sub_le l
    have hlnp : l ≤ 0 := by nlinarith
    by_cases hneg : jsRound l < 0
    · have hguard : ¬(0 < st.candles.length ∧ 0 ≤ jsRound l ∧
          jsRound l < (st.candles.length : ℤ)) := by
        intro h
        exact absurd h.2.1 (not_le.mpr hneg)
      have heval := logicalToTimeMs_neg st l hguard hdsne hneg
      rw [hds] at heval
      refine ⟨_, hltl, heval, ?_⟩
      have hdiff : ((st.candles.headD defaultCandle).openTime : ℚ) +
          (jsRound l : ℚ) * (intervalMs st.interval : ℚ) - t =
          ((jsRound l : ℚ) - l) * (intervalMs st.interval : ℚ) := by
        rw [sub_mul, hts]; ring
      rw [hdiff]
      exact abs_mul_step_le _ _ _ habs hstep
    · have h0 : jsRound l = 0 := by
        have hle : jsRound l ≤ 0 := by
          have h12 : l + 1 / 2 ≤ 1 / 2 := by linarith
          have hf := Int.floor_le_floor h12
          have : ⌊(1 / 2 : ℚ)⌋ = 0 := by norm_num
          rw [this] at hf
          exact hf
        omega
      have heval := logicalToTimeMs_in_range st l hpos (by omega)
        (by rw [h0]; exact_mod_cast hpos)
      rw [h0] at heval
      simp only [Int.toNat_zero, getD_zero_eq_headD] at heval
      refine ⟨_, hltl, heval, ?_⟩
      have hdiff : ((st.candles.headD defaultCandle).openTime : ℚ) - t =
          ((jsRound l : ℚ) - l) * (intervalMs st.interval : ℚ) := by
        rw [h0, sub_mul, hts]
        push_cast
        ring
      rw [hdiff]
      exact abs_mul_step_le _ _ _ habs hstep
  · have ht2 : ((st.candles.getLastD defaultCandle).openTime : ℚ) ≤ t :=
      hdom.resolve_left ht1
    refine ⟨(st.candles.length : ℚ) - 1 +
      (t - ((st.candles.getLastD defaultCandle).openTime : ℚ)) /
        (intervalMs st.interval : ℚ), ?_⟩
    have hltl := timeMsToLogical_ge_last st t hlen ht1 ht2
    have hq0 : 0 ≤ (t - ((st.candles.getLastD defaultCandle).openTime : ℚ)) /
        (intervalMs st.interval : ℚ) :=
      div_nonneg (by linarith) (le_of_lt hstep)
    have hqs : (t - ((st.candles.getLastD defaultCandle).openTime : ℚ)) /
        (intervalMs st.interval : ℚ) * (intervalMs st.interval : ℚ) =
        t - ((st.candles.getLastD defaultCandle).openTime : ℚ) :=
      div_mul_cancel₀ _ (ne_of_gt hstep)
    generalize hql : (t - ((st.candles.getLastD defaultCandle).openTime : ℚ)) /
      (intervalMs st.interval : ℚ) = q at hltl hq0 hqs ⊢
    have habs : |(jsRound ((st.candles.length : ℚ) - 1 + q) : ℚ) -
        ((st.candles.length : ℚ) - 1 + q)| ≤ 1 / 2 :=
      abs_jsRound_sub_le _
    have hlow : (st.candles.length : ℤ) - 1 ≤ jsRound ((st.candles.length : ℚ) - 1 + q) := by
      apply Int.le_floor.mpr
      push_cast
      linarith
    by_cases hlt : jsRound ((st.candles.length : ℚ) - 1 + q) < (st.candles.length : ℤ)
    · have heq : jsRound ((st.candles.length : ℚ) - 1 + q) =
          (st.candles.length : ℤ) - 1 := by omega
      have heval := logicalToTimeMs_in_range st ((st.candles.length : ℚ) - 1 + q)
        hpos (by omega) hlt
      rw [heq] at heval
      have htn : ((st.candles.length : ℤ) - 1).toNat = st.candles.length - 1 := by
        omega
      rw [htn, getD_pred_length_eq_getLastD] at heval
      refine ⟨_, hltl, heval, ?_⟩
      have hcast : (jsRound ((st.candles.length : ℚ) - 1 + q) : ℚ) =
          (st.candles.length : ℚ) - 1 := by
        rw [heq]; push_cast; ring
      have hdiff : ((st.candles.getLastD defaultCandle).openTime : ℚ) - t =
          ((jsRound ((st.candles.length : ℚ) - 1 + q) : ℚ) -
            ((st.candles.length : ℚ) - 1 + q)) * (intervalMs st.interval : ℚ) := by
        rw [hcast, sub_mul]
        have : ((st.candles.length : ℚ) - 1 + q) * (intervalMs st.interval : ℚ) =
            ((st.candles.length : ℚ) - 1) * (intervalMs st.interval : ℚ) +
            (t - ((st.candles.getLastD defaultCandle).openTime : ℚ)) := by
          rw [add_mul, hqs]
        rw [this]
        ring
      rw [hdiff]
      exact abs_mul_step_le _ _ _ habs hstep
    · have hguard : ¬(0 < st.candles.length ∧
          0 ≤ jsRound ((st.candles.length : ℚ) - 1 + q) ∧
          jsRound ((st.candles.length : ℚ) - 1 + q) < (st.candles.length : ℤ)) := by
        intro h
        exact hlt h.2.2
      have hnn : ¬ jsRound ((st.candles.length : ℚ) - 1 + q) < 0 := by omega
      have heval := logicalToTimeMs_beyond st ((st.candles.length : ℚ) - 1 + q)
        hguard hdsne hnn
      rw [hds] at heval
      refine ⟨_, hltl, heval, ?_⟩
      have hdiff : ((st.candles.getLastD defaultCandle).openTime : ℚ) +
          ((jsRound ((st.candles.length : ℚ) - 1 + q) : ℚ) -
            ((st.candles.length : ℚ) - 1)) * (intervalMs st.interval : ℚ) - t =
          ((jsRound ((st.candles.length : ℚ) - 1 + q) : ℚ) -
            ((st.candles.length : ℚ) - 1 + q)) * (intervalMs st.interval : ℚ) := by
        have hexp : q * (intervalMs st.interval : ℚ) =
            t - ((st.candles.getLastD defaultCandle).openTime : ℚ) := hqs
        ring_nf
        ring_nf at hexp
        linarith
      rw [hdiff]
      exact abs_mul_step_le _ _ _ habs hstep

/-- C4 counterexample: with replay truncation active and a gap in the data,
the round trip maps t = 30300000 (one step past the last candle) to
900000 — off by 98 interval steps, not at most one. -/
theorem roundtrip_counterexample :
    ((gapReplayState.candles.getLastD defaultCandle).openTime : ℚ) ≤ 30300000 ∧
    timeMsToLogical gapReplayState (JsNumber.fin 30300000) = some 3 ∧
    logicalToTimeMs gapReplayState (JsNumber.fin 3) = some 900000 ∧
    ¬ |(900000 : ℚ) - 30300000| ≤ (intervalMs gapReplayState.interval : ℚ) := by
  refine ⟨by norm_num [gapReplayState, mkCandle], ?_, ?_, by norm_num [gapReplayState, intervalMs]⟩
  · simp [timeMsToLogical, gapReplayState, mkCandle, intervalMs]
    norm_num
  · simp [logicalToTimeMs, gapReplayState, mkCandle, intervalMs, jsRound,
      displayedCandles]
    norm_num [Int.floor_eq_iff]

/-- C4 witness for the amended round-trip theorem, on a one-candle state
with no replay truncation. -/
theorem roundtrip_within_step_witness :
    ∃ l r, timeMsToLogical ⟨Interval.i5m, [mkCandle 0], none⟩ (JsNumber.fin 0) = some l ∧
      logicalToTimeMs ⟨Interval.i5m, [mkCandle 0], none⟩ (JsNumber.fin l) = some r ∧
      |r - 0| ≤ (intervalMs Interval.i5m : ℚ) :=
  roundtrip_within_step ⟨Interval.i5m, [mkCandle 0], none⟩ 0 rfl (by simp)
    (Or.inl (by norm_num [mkCandle]))

theorem bucketOf_cons_self (k : ℤ) (b : List Candle) (rest : List (ℤ × List Candle)) :
    bucketOf ((k, b) :: rest) k = b := by
  have hp : (fun p : ℤ × List Candle => p.1 == k) (k, b) = true := by simp
  simp [bucketOf, List.find?_cons_of_pos _ hp]

theorem bucketOf_cons_ne (k2 : ℤ) (b : List Candle) (rest : List (ℤ × List Candle))
    (w : ℤ) (h : ¬ k2 = w) : bucketOf ((k2, b) :: rest) w = bucketOf rest w := by
  have hp : ¬ (fun p : ℤ × List Candle => p.1 == w) (k2, b) = true := by simpa using h
  simp only [bucketOf]
  rw [List.find?_cons_of_neg rest hp]

theorem insertInto_cons_eq (k : ℤ) (b : List Candle) (rest : List (ℤ × List Candle))
    (c : Candle) : insertInto ((k, b) :: rest) k c = (k, b ++ [c]) :: rest := by
  simp [insertInto]

theorem insertInto_cons_ne (k2 k : ℤ) (b : List Candle) (rest : List (ℤ × List Candle))
    (c : Candle) (h : ¬ k2 = k) :
    insertInto ((k2, b) :: rest) k c = (k2, b) :: insertInto rest k c := by
  simp [insertInto, h]

theorem bucketOf_insertInto (g : List (ℤ × List Candle)) (k : ℤ) (c : Candle) (w : ℤ) :
    bucketOf (insertInto g k c) w =
      if k = w then bucketOf g w ++ [c] else bucketOf g w := by
  induction g with
  | nil =>
    by_cases h : k = w
    · subst h
      simp [insertInto, bucketOf_cons_self, bucketOf]
    · rw [if_neg h]
      show bucketOf [(k, [c])] w = bucketOf [] w
      rw [bucketOf_cons_ne k [c] [] w h]
  | cons p rest ih =>
    obtain ⟨k2, b⟩ := p
    by_cases h2 : k2 = k
    · subst h2
      rw [insertInto_cons_eq]
      by_cases hw : k2 = w
      · subst hw
        rw [if_pos rfl, bucketOf_cons_self, bucketOf_cons_self]
      · rw [if_neg hw, bucketOf_cons_ne _ _ _ _ hw, bucketOf_cons_ne _ _ _ _ hw]
    · rw [insertInto_cons_ne _ _ _ _ _ h2]
      by_cases hw : k2 = w
      · subst hw
        have hkw : ¬ k = k2 := fun h => h2 h.symm
        rw [if_neg hkw, bucketOf_cons_self, bucketOf_cons_self]
      · rw [bucketOf_cons_ne _ _ _ _ hw, bucketOf_cons_ne _ _ _ _ hw, ih]

theorem bucketOf_foldl (l : List Candle) (g : List (ℤ × List Candle)) (w : ℤ) :
    bucketOf (l.foldl (fun g c => insertInto g (startOfUtcMonday c.openTime) c) g) w =
      bucketOf g w ++ l.filter (fun c => startOfUtcMonday c.openTime == w) := by
  induction l generalizing g with
  | nil => simp
  | cons c l ih =>
    simp only [List.foldl_cons, List.filter_cons]
    rw [ih, bucketOf_insertInto]
    by_cases h : startOfUtcMonday c.openTime = w
    · simp [h]
    · simp [h]

theorem bucketOf_groupCandles (l : List Candle) (w : ℤ) :
    bucketOf (groupCandles l) w =
      l.filter (fun c => startOfUtcMonday c.openTime == w) := by
  have h := bucketOf_foldl l [] w
  simpa [groupCandles, bucketOf] using h

theorem mem_keys_insertInto (g : List (ℤ × List Candle)) (k : ℤ) (c : Candle) (w : ℤ) :
    w ∈ keysOf (insertInto g k c) ↔ w ∈ keysOf g ∨ w = k := by
  induction g with
  | nil => simp [insertInto, keysOf, eq_comm]
  | cons p rest ih =>
    obtain ⟨k2, b⟩ := p
    by_cases h2 : k2 = k
    · subst h2
      rw [insertInto_cons_eq]
      simp only [keysOf, List.map_cons, List.mem_cons] at ih ⊢
      constructor
      · rintro (h | h)
        · exact Or.inl (Or.inl h)
        · exact Or.inl (Or.inr h)
      · rintro ((h | h) | h)
        · exact Or.inl h
        · exact Or.inr h
        · exact Or.inl h
    · rw [insertInto_cons_ne _ _ _ _ _ h2]
      simp only [keysOf, List.map_cons, List.mem_cons] at ih ⊢
      rw [ih]
      tauto

theorem keys_nodup_insertInto (g : List (ℤ × List Candle)) (k : ℤ) (c : Candle)
    (h : (keysOf g).Nodup) : (keysOf (insertInto g k c)).Nodup := by
  induction g with
  | nil => simp [insertInto, keysOf]
  | cons p rest ih =>
    obtain ⟨k2, b⟩ := p
    simp only [keysOf, List.map_cons, List.nodup_cons] at h
    by_cases h2 : k2 = k
    · subst h2
      rw [insertInto_cons_eq]
      simp only [keysOf, List.map_cons, List.nodup_cons]
      exact ⟨h.1, h.2⟩
    · rw [insertInto_cons_ne _ _ _ _ _ h2]
      simp only [keysOf, List.map_cons, List.nodup_cons]
      refine ⟨?_, ih h.2⟩
      intro hmem
      rcases (mem_keys_insertInto rest k c k2).mp hmem with hm | he
      · exact h.1 hm
      · exact h2 he

theorem keys_nodup_foldl (l : List Candle) (g : List (ℤ × List Candle))
    (h : (keysOf g).Nodup) :
    (keysOf (l.foldl (fun g c => insertInto g (startOfUtcMonday c.openTime) c) g)).Nodup := by
  induction l generalizing g with
  | nil => exact h
  | cons c l ih =>
    exact ih _ (keys_nodup_insertInto g _ c h)

theorem keys_nodup_groupCandles (l : List Candle) : (keysOf (groupCandles l)).Nodup :=
  keys_nodup_foldl l [] (by simp [keysOf])

theorem mem_keys_foldl (l : List Candle) (g : List (ℤ × List Candle)) (w : ℤ) :
    w ∈ keysOf (l.foldl (fun g c => insertInto g (startOfUtcMonday c.openTime) c) g) ↔
      w ∈ keysOf g ∨ ∃ c ∈ l, startOfUtcMonday c.openTime = w := by
  induction l generalizing g with
  | nil => simp
  | cons c l ih =>
    simp only [List.foldl_cons]
    rw [ih, mem_keys_insertInto]
    constructor
    · rintro ((h | h) | h)
      · exact Or.inl h
      · exact Or.inr ⟨c, List.mem_cons_self c l, h.symm⟩
      · obtain ⟨d, hd, hw⟩ := h
        exact Or.inr ⟨d, List.mem_cons_of_mem c hd, hw⟩
    · rintro (h | ⟨d, hd, hw⟩)
      · exact Or.inl (Or.inl h)
      · rcases List.mem_cons.mp hd with rfl | hd2
        · exact Or.inl (Or.inr hw.symm)
        · exact Or.inr ⟨d, hd2, hw⟩

theorem mem_keys_groupCandles (l : List Candle) (w : ℤ) :
    w ∈ keysOf (groupCandles l) ↔ ∃ c ∈ l, startOfUtcMonday c.openTime = w := by
  have h := mem_keys_foldl l [] w
  simpa [groupCandles, keysOf] using h

theorem snd_eq_bucketOf_of_mem (g : List (ℤ × List Candle))
    (hnd : (keysOf g).Nodup) (w : ℤ) (b : List Candle) (h : (w, b) ∈ g) :
    b = bucketOf g w := by
  induction g with
  | nil => cases h
  | cons p rest ih =>
    obtain ⟨k2, b2⟩ := p
    simp only [keysOf, List.map_cons, List.nodup_cons] at hnd
    rcases List.mem_cons.mp h with he | hm
    · injection he with h1 h2
      subst h1
      subst h2
      rw [bucketOf_cons_self]
    · by_cases hw : k2 = w
      · subst hw
        have : k2 ∈ List.map Prod.fst rest := by
          exact List.mem_map_of_mem Prod.fst hm
        exact absurd this hnd.1
      · rw [bucketOf_cons_ne _ _ _ _ hw]
        exact ih hnd.2 hm

theorem mem_of_mem_keys (g : List (ℤ × List Candle)) (w : ℤ)
    (h : w ∈ keysOf g) : (w, bucketOf g w) ∈ g := by
  induction g with
  | nil => simp [keysOf] at h
  | cons p rest ih =>
    obtain ⟨k2, b2⟩ := p
    by_cases hw : k2 = w
    · subst hw
      rw [bucketOf_cons_self]
      exact List.mem_cons_self _ _
    · simp only [keysOf, List.map_cons, List.mem_cons] at h
      rcases h with h | h
      · exact absurd h.symm hw
      · rw [bucketOf_cons_ne _ _ _ _ hw]
        exact List.mem_cons_of_mem _ (ih h)

theorem foldl_max_high_le (l : List Candle) (a : ℚ) :
    a ≤ l.foldl (fun x c => max x c.high) a ∧
      ∀ c ∈ l, c.high ≤ l.foldl (fun x c => max x c.high) a := by
  induction l generalizing a with
  | nil => exact ⟨le_refl a, by simp⟩
  | cons c l ih =>
    obtain ⟨h1, h2⟩ := ih (max a c.high)
    refine ⟨le_trans (le_max_left a c.high) h1, ?_⟩
    intro d hd
    rcases List.mem_cons.mp hd with rfl | hd2
    · exact le_trans (le_max_right a d.high) h1
    · exact h2 d hd2

theorem foldl_max_high_mem (l : List Candle) (a : ℚ) :
    l.foldl (fun x c => max x c.high) a = a ∨
      ∃ c ∈ l, l.foldl (fun x c => max x c.high) a = c.high := by
  induction l generalizing a with
  | nil => exact Or.inl rfl
  | cons c l ih =>
    rcases ih (max a c.high) with h | ⟨d, hd, he⟩
    · rcases max_choice a c.high with hm | hm
      · exact Or.inl (by rw [List.foldl_cons, h, hm])
      · exact Or.inr ⟨c, List.mem_cons_self c l, by rw [List.foldl_cons, h, hm]⟩
    · exact Or.inr ⟨d, List.mem_cons_of_mem c hd, he⟩

theorem foldl_min_low_le (l : List Candle) (a : ℚ) :
    l.foldl (fun x c => min x c.low) a ≤ a ∧
      ∀ c ∈ l, l.foldl (fun x c => min x c.low) a ≤ c.low := by
  induction l generalizing a with
  | nil => exact ⟨le_refl a, by simp⟩
  | cons c l ih =>
    obtain ⟨h1, h2⟩ := ih (min a c.low)
    refine ⟨le_trans h1 (min_le_left a c.low), ?_⟩
    intro d hd
    rcases List.mem_cons.mp hd with rfl | hd2
    · exact le_trans h1 (min_le_right a d.low)
    · exact h2 d hd2

theorem foldl_min_low_mem (l : List Candle) (a : ℚ) :
    l.foldl (fun x c => min x c.low) a = a ∨
      ∃ c ∈ l, l.foldl (fun x c => min x c.low) a = c.low := by
  induction l generalizing a with
  | nil => exact Or.inl rfl
  | cons c l ih =>
    rcases ih (min a c.low) with h | ⟨d, hd, he⟩
    · rcases min_choice a c.low with hm | hm
      · exact Or.inl (by rw [List.foldl_cons, h, hm])
      · exact Or.inr ⟨c, List.mem_cons_self c l, by rw [List.foldl_cons, h, hm]⟩
    · exact Or.inr ⟨d, List.mem_cons_of_mem c hd, he⟩

theorem mondayRanges_eq (st : ChartState) (h : ¬ (displayedCandles st).length = 0) :
    mondayRanges st = ((groupCandles (displayedCandles st)).filterMap (fun p =>
      match p.2.filter isMondayCandle with
      | [] => none
      | m0 :: _ =>
        some (⟨p.1, p.1 + 7 * 24 * 60 * 60 * 1000 - intervalMs st.interval,
          (p.2.filter isMondayCandle).foldl (fun a c => max a c.high) m0.high,
          (p.2.filter isMondayCandle).foldl (fun a c => min a c.low) m0.low⟩ :
            MondayRange))).mergeSort
      (fun a b => decide (a.weekStartMs ≤ b.weekStartMs)) := by
  simp only [mondayRanges]
  rw [if_neg h]

theorem mondayCandles_of_bucket (st : ChartState) (w : ℤ) :
    (bucketOf (groupCandles (displayedCandles st)) w).filter isMondayCandle =
      mondayCandlesOfWeek st w := by
  rw [bucketOf_groupCandles, mondayCandlesOfWeek, List.filter_filter]

/-- C6: the Monday-band computation omits weeks without Monday candles;
where a band exists, its high (low) is the maximum high (minimum low) over
that week's Monday candles only; bands are sorted ascending by week start
and span exactly one week minus one interval step. -/
theorem mondayRanges_spec (st : ChartState) :
    (∀ w : ℤ, (∃ r ∈ mondayRanges st, r.weekStartMs = w) ↔
      ∃ c ∈ displayedCandles st,
        isMondayCandle c = true ∧ startOfUtcMonday c.openTime = w) ∧
    (∀ r ∈ mondayRanges st,
      (r.mondayHigh ∈ (mondayCandlesOfWeek st r.weekStartMs).map Candle.high ∧
        ∀ c ∈ mondayCandlesOfWeek st r.weekStartMs, c.high ≤ r.mondayHigh) ∧
      (r.mondayLow ∈ (mondayCandlesOfWeek st r.weekStartMs).map Candle.low ∧
        ∀ c ∈ mondayCandlesOfWeek st r.weekStartMs, r.mondayLow ≤ c.low) ∧
      r.weekEndMs = r.weekStartMs + 7 * 24 * 60 * 60 * 1000 - intervalMs st.interval) ∧
    List.Pairwise (fun a b => a.weekStartMs ≤ b.weekStartMs) (mondayRanges st) := by
  by_cases hds : (displayedCandles st).length = 0
  · have hempty : mondayRanges st = [] := by
      simp only [mondayRanges]
      rw [if_pos hds]
    have hdse : displayedCandles st = [] := List.length_eq_zero.mp hds
    rw [hempty, hdse]
    simp
  · rw [mondayRanges_eq st hds]
    have hnd := keys_nodup_groupCandles (displayedCandles st)
    have hperm := List.mergeSort_perm
      ((groupCandles (displayedCandles st)).filterMap (fun p =>
        match p.2.filter isMondayCandle with
        | [] => none
        | m0 :: _ =>
          some (⟨p.1, p.1 + 7 * 24 * 60 * 60 * 1000 - intervalMs st.interval,
            (p.2.filter isMondayCandle).foldl (fun a c => max a c.high) m0.high,
            (p.2.filter isMondayCandle).foldl (fun a c => min a c.low) m0.low⟩ :
              MondayRange)))
      (fun a b => decide (a.weekStartMs ≤ b.weekStartMs))
    refine ⟨?_, ?_, ?_⟩
    · intro w
      constructor
      · rintro ⟨r, hr, hw⟩
        rw [hperm.mem_iff, List.mem_filterMap] at hr
        obtain ⟨p, hp, hf⟩ := hr
        obtain ⟨pw, pb⟩ := p
        rcases hm : pb.filter isMondayCandle with _ | ⟨m0, rest⟩
        · rw [hm] at hf
          simp at hf
        · rw [hm] at hf
          simp only [Option.some.injEq] at hf
          have hbucket : pb = bucketOf (groupCandles (displayedCandles st)) pw :=
            snd_eq_bucketOf_of_mem _ hnd pw pb hp
          have hmc : pb.filter isMondayCandle = mondayCandlesOfWeek st pw := by
            rw [hbucket, mondayCandles_of_bucket]
          have hm0 : m0 ∈ mondayCandlesOfWeek st pw := by
            rw [← hmc, hm]
            exact List.mem_cons_self m0 rest
          rw [mondayCandlesOfWeek, List.mem_filter] at hm0
          refine ⟨m0, hm0.1, ?_, ?_⟩
          · have := hm0.2
            simp only [Bool.and_eq_true, beq_iff_eq] at this
            exact this.1
          · have := hm0.2
            simp only [Bool.and_eq_true, beq_iff_eq] at this
            rw [this.2, ← hw, ← hf]
      · rintro ⟨c, hc, hmon, hwk⟩
        have hkey : w ∈ keysOf (groupCandles (displayedCandles st)) :=
          (mem_keys_groupCandles _ w).mpr ⟨c, hc, hwk⟩
        have hmem := mem_of_mem_keys _ w hkey
        have hcin : c ∈ (bucketOf (groupCandles (displayedCandles st)) w).filter
            isMondayCandle := by
          rw [mondayCandles_of_bucket, mondayCandlesOfWeek, List.mem_filter]
          exact ⟨hc, by simp [hmon, hwk]⟩
        rcases hm : (bucketOf (groupCandles (displayedCandles st)) w).filter
            isMondayCandle with _ | ⟨m0, rest⟩
        · rw [hm] at hcin
          cases hcin
        · refine ⟨⟨w, w + 7 * 24 * 60 * 60 * 1000 - intervalMs st.interval,
            ((bucketOf (groupCandles (displayedCandles st)) w).filter
              isMondayCandle).foldl (fun a c => max a c.high) m0.high,
            ((bucketOf (groupCandles (displayedCandles st)) w).filter
              isMondayCandle).foldl (fun a c => min a c.low) m0.low⟩, ?_, rfl⟩
          rw [hperm.mem_iff, List.mem_filterMap]
          refine ⟨(w, bucketOf (groupCandles (displayedCandles st)) w), hmem, ?_⟩
          simp only
          rw [hm]
    · intro r hr
      rw [hperm.mem_iff, List.mem_filterMap] at hr
      obtain ⟨p, hp, hf⟩ := hr
      obtain ⟨pw, pb⟩ := p
      rcases hm : pb.filter isMondayCandle with _ | ⟨m0, rest⟩
      · rw [hm] at hf
        simp at hf
      · rw [hm] at hf
        simp only [Option.some.injEq] at hf
        have hbucket : pb = bucketOf (groupCandles (displayedCandles st)) pw :=
          snd_eq_bucketOf_of_mem _ hnd pw pb hp
        have hmc : pb.filter isMondayCandle = mondayCandlesOfWeek st pw := by
          rw [hbucket, mondayCandles_of_bucket]
        have hws : r.weekStartMs = pw := by rw [← hf]
        have hmondays : mondayCandlesOfWeek st r.weekStartMs = m0 :: rest := by
          rw [hws, ← hmc, hm]
        refine ⟨⟨?_, ?_⟩, ⟨?_, ?_⟩, ?_⟩
        · have hhigh : r.mondayHigh = (m0 :: rest).foldl (fun a c => max a c.high) m0.high := by
            rw [← hf, ← hm]
          rw [hhigh, hmondays]
          rcases foldl_max_high_mem (m0 :: rest) m0.high with h | ⟨d, hd, he⟩
          · rw [h]
            exact List.mem_map_of_mem Candle.high (List.mem_cons_self m0 rest)
          · rw [he]
            exact List.mem_map_of_mem Candle.high hd
        · intro c hcm
          have hhigh : r.mondayHigh = (m0 :: rest).foldl (fun a c => max a c.high) m0.high := by
            rw [← hf, ← hm]
          rw [hhigh]
          exact (foldl_max_high_le (m0 :: rest) m0.high).2 c (hmondays ▸ hcm)
        · have hlow : r.mondayLow = (m0 :: rest).foldl (fun a c => min a c.low) m0.low := by
            rw [← hf, ← hm]
          rw [hlow, hmondays]
          rcases foldl_min_low_mem (m0 :: rest) m0.low with h | ⟨d, hd, he⟩
          · rw [h]
            exact List.mem_map_of_mem Candle.low (List.mem_cons_self m0 rest)
          · rw [he]
            exact List.mem_map_of_mem Candle.low hd
        · intro c hcm
          have hlow : r.mondayLow = (m0 :: rest).foldl (fun a c => min a c.low) m0.low := by
            rw [← hf, ← hm]
          rw [hlow]
          exact (foldl_min_low_le (m0 :: rest) m0.low).2 c (hmondays ▸ hcm)
        · rw [← hf]
    · have hs := @List.sorted_mergeSort MondayRange
        (fun a b => decide (a.weekStartMs ≤ b.weekStartMs))
        (fun a b c hab hbc => by
          simp only [decide_eq_true_eq] at hab hbc ⊢
          exact le_trans hab hbc)
        (fun a b => by
          simp only [Bool.or_eq_true, decide_eq_true_eq]
          exact le_total a.weekStartMs b.weekStartMs)
        ((groupCandles (displayedCandles st)).filterMap (fun p =>
          match p.2.filter isMondayCandle with
          | [] => none
          | m0 :: _ =>
            some (⟨p.1, p.1 + 7 * 24 * 60 * 60 * 1000 - intervalMs st.interval,
              (p.2.filter isMondayCandle).foldl (fun a c => max a c.high) m0.high,
              (p.2.filter isMondayCandle).foldl (fun a c => min a c.low) m0.low⟩ :
                MondayRange)))
      exact hs.imp (fun h => by simpa using h)

theorem mondayRanges_mondaySt :
    mondayRanges mondaySt = [⟨345600000, 946800000, 2, 1⟩] := by
  simp [mondayRanges, mondaySt, displayedCandles, groupCandles, insertInto,
    isMondayCandle, utcDay, startOfUtcMonday, mkCandle, intervalMs,
    List.mergeSort_singleton]

/-- C6 witness: the spec theorem instantiated on a concrete one-Monday-candle
state, with the band membership hypothesis discharged concretely. -/
theorem mondayRanges_spec_witness :
    ((⟨345600000, 946800000, 2, 1⟩ : MondayRange).mondayHigh ∈
        (mondayCandlesOfWeek mondaySt 345600000).map Candle.high ∧
      ∀ c ∈ mondayCandlesOfWeek mondaySt 345600000,
        c.high ≤ (⟨345600000, 946800000, 2, 1⟩ : MondayRange).mondayHigh) ∧
    ((⟨345600000, 946800000, 2, 1⟩ : MondayRange).mondayLow ∈
        (mondayCandlesOfWeek mondaySt 345600000).map Candle.low ∧
      ∀ c ∈ mondayCandlesOfWeek mondaySt 345600000,
        (⟨345600000, 946800000, 2, 1⟩ : MondayRange).mondayLow ≤ c.low) ∧
    (⟨345600000, 946800000, 2, 1⟩ : MondayRange).weekEndMs =
      (⟨345600000, 946800000, 2, 1⟩ : MondayRange).weekStartMs +
        7 * 24 * 60 * 60 * 1000 - intervalMs mondaySt.interval :=
  (mondayRanges_spec mondaySt).2.1 ⟨345600000, 946800000, 2, 1⟩
    (by rw [mondayRanges_mondaySt]; exact List.mem_singleton.mpr rfl)

theorem emaLoop_one (l : List Candle) (ema : ℚ) :
    emaLoop 1 ema l =
      l.map (fun c => ⟨toUtcTimestamp c.openTime, toFixed4 c.close⟩) := by
  induction l generalizing ema with
  | nil => rfl
  | cons c rest ih =>
    have harith : (c.close - ema) * 1 + ema = c.close := by ring
    simp only [emaLoop, harith, List.map_cons, ih]

/-- C7 (amended): EMA with period 1 returns the close price series with each
value rounded to 4 decimal places (so it equals the close series exactly
whenever every close is a multiple of 1/10000). -/
theorem computeEma_period_one (candles : List Candle) :
    computeEma candles 1 =
      candles.map (fun c => ⟨toUtcTimestamp c.openTime, toFixed4 c.close⟩) := by
  cases candles with
  | nil => rfl
  | cons c rest =>
    have hm : (2 : ℚ) / ((1 : ℤ) + 1 : ℚ) = 1 := by norm_num
    simp only [computeEma]
    rw [if_neg (by norm_num)]
    rw [show ((2 : ℚ) / (((1 : ℤ) : ℚ) + 1)) = 1 by norm_num]
    exact emaLoop_one (c :: rest) c.close

/-- C7 counterexample: with close = 0.123456, period-1 EMA outputs 0.1235,
which is not the close price — the 4-decimal rounding loses precision. -/
theorem computeEma_period_one_counterexample :
    computeEma [fineCloseCandle] 1 = [⟨0, 1235 / 10000⟩] ∧
    (1235 / 10000 : ℚ) ≠ fineCloseCandle.close := by
  constructor
  · simp [computeEma, emaLoop, fineCloseCandle, toFixed4, toUtcTimestamp]
    rw [show ((123456 : ℚ) / 1000000 * 10000 + 2⁻¹) = 123506 / 100 by norm_num]
    rw [show ⌊(123506 : ℚ) / 100⌋ = 1235 by norm_num [Int.floor_eq_iff]]
    norm_num
  · simp [fineCloseCandle]
    norm_num

theorem replayTick_startIndex (len : ℕ) (s : ReplayState) :
    (replayTick len s).replayStartIndex = s.replayStartIndex := by
  obtain ⟨st, cur, run, sp⟩ := s
  cases run <;> cases cur <;> simp only [replayTick] <;>
    first
    | rfl
    | (split <;>
        first
        | rfl
        | (split <;> rfl))

theorem replayTick_current (len : ℕ) (s : ReplayState) :
    (replayTick len s).currentReplayIndex = s.currentReplayIndex ∨
      ∃ prev, s.currentReplayIndex = some prev ∧ ¬ len - 1 ≤ prev ∧
        (replayTick len s).currentReplayIndex = some (prev + 1) := by
  obtain ⟨st, cur, run, sp⟩ := s
  cases run with
  | false => exact Or.inl rfl
  | true =>
    cases cur with
    | none => exact Or.inl rfl
    | some prev =>
      by_cases hend : len - 1 ≤ prev
      · exact Or.inl (by simp [replayTick, hend])
      · exact Or.inr ⟨prev, rfl, hend, by simp [replayTick, hend]⟩

theorem onStartReplay_startIndex (s : ReplayState) :
    (onStartReplay s).replayStartIndex = s.replayStartIndex := by
  obtain ⟨st, cur, run, sp⟩ := s
  cases st <;> cases cur <;> rfl

theorem onStartReplay_current (s : ReplayState) :
    (onStartReplay s).currentReplayIndex = s.currentReplayIndex ∨
      ∃ start, s.replayStartIndex = some start ∧
        (onStartReplay s).currentReplayIndex = some start := by
  obtain ⟨st, cur, run, sp⟩ := s
  cases st with
  | none => exact Or.inl rfl
  | some start =>
    cases cur with
    | none => exact Or.inr ⟨start, rfl, rfl⟩
    | some cur => exact Or.inl rfl

theorem reachable_indices_lt (len : ℕ) (s : ReplayState)
    (h : ReachableReplay len s) :
    (∀ i, s.replayStartIndex = some i → i < len) ∧
    (∀ i, s.currentReplayIndex = some i → i < len) := by
  induction h with
  | init =>
    exact ⟨fun i h => by simp [initialReplayState] at h,
      fun i h => by simp [initialReplayState] at h⟩
  | tick h ih =>
    rename_i s
    refine ⟨fun i hi => ih.1 i (by rwa [replayTick_startIndex] at hi), fun i hi => ?_⟩
    rcases replayTick_current len s with heq | ⟨prev, hc, hlt, hset⟩
    · rw [heq] at hi
      exact ih.2 i hi
    · rw [hset] at hi
      injection hi with hi2
      have hp := ih.2 prev hc
      omega
  | start h ih =>
    rename_i s
    refine ⟨fun i hi => ih.1 i (by rwa [onStartReplay_startIndex] at hi), fun i hi => ?_⟩
    rcases onStartReplay_current s with heq | ⟨start, hs, hset⟩
    · rw [heq] at hi
      exact ih.2 i hi
    · rw [hset] at hi
      injection hi with hi2
      subst hi2
      exact ih.1 _ hs
  | pause h ih => exact ⟨fun i hi => ih.1 i hi, fun i hi => ih.2 i hi⟩
  | reset h ih =>
    exact ⟨fun i hi => by simp [onResetReplay] at hi,
      fun i hi => by simp [onResetReplay] at hi⟩
  | setStart idx hidx h ih =>
    refine ⟨fun i hi => ?_, fun i hi => by simp [setReplayStart] at hi⟩
    simp only [setReplayStart, Option.some.injEq] at hi
    omega
  | speed sp h ih => exact ⟨fun i hi => ih.1 i hi, fun i hi => ih.2 i hi⟩

/-- C5: the replay timer delay is max(80, 1000/speed) ms — 1000/500/200/100
for speeds 1/2/5/10; while running, a tick below the last index advances the
current index by exactly 1; at or past the last index the next tick pauses
without advancing; and no reachable state has a current index beyond the
last candle index. -/
theorem replay_tick_spec (len : ℕ) (s : ReplayState) :
    (tickIntervalMs 1 = 1000 ∧ tickIntervalMs 2 = 500 ∧
      tickIntervalMs 5 = 200 ∧ tickIntervalMs 10 = 100) ∧
    (∀ prev, s.replayRunning = true → s.currentReplayIndex = some prev →
      prev < len - 1 →
      (replayTick len s).currentReplayIndex = some (prev + 1) ∧
      (replayTick len s).replayRunning = true) ∧
    (∀ prev, s.replayRunning = true → s.currentReplayIndex = some prev →
      len - 1 ≤ prev →
      (replayTick len s).replayRunning = false ∧
      (replayTick len s).currentReplayIndex = some prev) ∧
    (ReachableReplay len s → ∀ i, s.currentReplayIndex = some i → i < len) := by
  refine ⟨⟨rfl, rfl, rfl, rfl⟩, ?_, ?_, ?_⟩
  · intro prev hr hc hlt
    obtain ⟨st, cur, run, sp⟩ := s
    simp only at hr hc
    subst hr
    subst hc
    constructor <;> simp [replayTick, Nat.not_le.mpr hlt]
  · intro prev hr hc hge
    obtain ⟨st, cur, run, sp⟩ := s
    simp only at hr hc
    subst hr
    subst hc
    constructor <;> simp [replayTick, hge]
  · intro h i hc
    exact (reachable_indices_lt len s h).2 i hc

/-- C5 witness: a three-candle replay at speed 10; a mid-run tick advances
0 → 1, a tick at the last index 2 pauses without advancing, and a state
with current index 2 reached by ticking from the start is in range. -/
theorem replay_tick_spec_witness :
    ((replayTick 3 ⟨some 0, some 0, true, 10⟩).currentReplayIndex = some 1 ∧
      (replayTick 3 ⟨some 0, some 0, true, 10⟩).replayRunning = true) ∧
    ((replayTick 3 ⟨some 0, some 2, true, 10⟩).replayRunning = false ∧
      (replayTick 3 ⟨some 0, some 2, true, 10⟩).currentReplayIndex = some 2) ∧
    (2 : ℕ) < 3 := by
  refine ⟨(replay_tick_spec 3 ⟨some 0, some 0, true, 10⟩).2.1 0 rfl rfl (by omega),
    (replay_tick_spec 3 ⟨some 0, some 2, true, 10⟩).2.2.1 2 rfl rfl (by omega),
    ?_⟩
  have hreach : ReachableReplay 3
      (replayTick 3 (replayTick 3 (onStartReplay (setReplayStart initialReplayState 0)))) :=
    ReachableReplay.tick (ReachableReplay.tick (ReachableReplay.start
      (ReachableReplay.setStart 0 (by omega) ReachableReplay.init)))
  have hstate : replayTick 3 (replayTick 3 (onStartReplay
      (setReplayStart initialReplayState 0))) = ⟨some 0, some 2, true, 2⟩ := by
    rfl
  exact (replay_tick_spec 3 ⟨some 0, some 2, true, 2⟩).2.2.2 (hstate ▸ hreach) 2 rfl

/-- C10: tp drags change only the third point's price, sl drags only the
second point's price, time drags set the fourth point's time to
max(entry time + step, pointer time) — so after a time drag the fourth
point's time is at least the first point's time plus one interval step —
and the collection update rewrites only the selected drawing's points. -/
theorem dragHandle_spec (iv : Interval) (p0 p1 p2 p3 : DrawingPoint)
    (rest : List DrawingPoint) (dp : DrawingPoint) :
    dragPositionPoints iv PositionHandle.tp (p0 :: p1 :: p2 :: p3 :: rest) dp =
      p0 :: p1 :: ⟨p2.time, dp.price⟩ :: p3 :: rest ∧
    dragPositionPoints iv PositionHandle.sl (p0 :: p1 :: p2 :: p3 :: rest) dp =
      p0 :: ⟨p1.time, dp.price⟩ :: p2 :: p3 :: rest ∧
    dragPositionPoints iv PositionHandle.time (p0 :: p1 :: p2 :: p3 :: rest) dp =
      p0 :: p1 :: p2 :: ⟨max (p0.time + (intervalMs iv : ℚ)) dp.time, p3.price⟩ :: rest ∧
    p0.time + (intervalMs iv : ℚ) ≤
      ((dragPositionPoints iv PositionHandle.time (p0 :: p1 :: p2 :: p3 :: rest) dp).getD 3
        defaultDrawingPoint).time ∧
    (∀ (drawings : List Drawing) (sel : Drawing) (handle : PositionHandle),
      sel.type = DrawingType.longpos ∨ sel.type = DrawingType.shortpos →
      sel.points = p0 :: p1 :: p2 :: p3 :: rest →
      onCanvasMoveDrag iv handle drawings sel dp =
        drawings.map (fun d =>
          if d.id == sel.id then
            { d with points := dragPositionPoints iv handle sel.points dp }
          else d)) := by
  refine ⟨rfl, rfl, rfl, ?_, ?_⟩
  · simp [dragPositionPoints, List.getD]
  · intro drawings sel handle htype hpts
    simp only [onCanvasMoveDrag, if_pos htype]
    rw [if_neg (by rw [hpts]; simp)]

/-- C10 witness: concrete time-handle drag on a selected long position. -/
theorem dragHandle_spec_witness :
    onCanvasMoveDrag Interval.i5m PositionHandle.time [posDrawing] posDrawing ⟨-5, 50⟩ =
      [posDrawing].map (fun d =>
        if d.id == posDrawing.id then
          { d with points := (dragPositionPoints Interval.i5m PositionHandle.time
              posDrawing.points ⟨-5, 50⟩) }
        else d) :=
  (dragHandle_spec Interval.i5m ⟨0, 100⟩ ⟨0, 99⟩ ⟨0, 101⟩ ⟨12000000, 100⟩ []
    ⟨-5, 50⟩).2.2.2.2 [posDrawing] posDrawing PositionHandle.time (Or.inl rfl) rfl

/-- C2 counterexample: a style patch whose persistence call fails still
rewrites the local collection — the local copy is not equal to its
pre-mutation value, contradicting the claim for style patches. -/
theorem clientMutation_counterexample :
    updateSelectedDrawingStyleClient [plainHline] plainHline
        [("color", "#ff0000")] (Except.error ()) ≠ [plainHline] := by
  simp [updateSelectedDrawingStyleClient, jsMergeStyle, plainHline]

/-- C2 (amended): create and delete mutate the local collection only after
persistence succeeds and leave it unchanged on failure; style patches and
drag point edits rewrite the local collection identically whether the PUT
succeeds or fails (the optimistic update is never rolled back). -/
theorem clientMutation_spec (drawings : List Drawing) (selected : Drawing)
    (patch : List (String × String)) (iv : Interval) (handle : PositionHandle)
    (dragPoint : DrawingPoint) (id : ℤ) :
    (saveDrawingClient drawings (Except.error ()) = drawings) ∧
    (∀ created, saveDrawingClient drawings (Except.ok created) =
      drawings ++ [created]) ∧
    (onDeleteDrawingClient drawings id (Except.error ()) = drawings) ∧
    (onDeleteDrawingClient drawings id (Except.ok ()) =
      drawings.filter (fun d => d.id != id)) ∧
    (∀ r1 r2, updateSelectedDrawingStyleClient drawings selected patch r1 =
      updateSelectedDrawingStyleClient drawings selected patch r2) ∧
    (∀ r1 r2, dragPointsMutationClient iv handle drawings selected dragPoint r1 =
      dragPointsMutationClient iv handle drawings selected dragPoint r2) := by
  refine ⟨rfl, fun created => rfl, rfl, rfl, fun r1 r2 => ?_, fun r1 r2 => ?_⟩
  · cases r1 <;> cases r2 <;> rfl
  · cases r1 <;> cases r2 <;> rfl

/-- C3 counterexample: a patch body containing a `type` field is accepted
and changes the stored type from rect to hline, so the endpoint does not
leave `type` unchanged for every accepted patch. -/
theorem updateDrawing_counterexample :
    updateDrawingHandler [rectRow] 3 ⟨none, some DrawingType.hline, none, none⟩ 5 =
      Except.ok ([{ rectRow with type := DrawingType.hline, updatedAt := 5 }],
        { rectRow with type := DrawingType.hline, updatedAt := 5 }) ∧
    rectRow.type ≠ DrawingType.hline := by
  constructor
  · rfl
  · simp [rectRow]

theorem applyPatch_id (r : DrawingRow) (patch : DrawingPatch) (now : ℤ) :
    (applyPatch r patch now).id = r.id := by
  obtain ⟨psym, ptype, ppoints, pstyle⟩ := patch
  cases psym <;> cases ptype <;> cases ppoints <;> cases pstyle <;>
    simp [applyPatch] <;> split <;> rfl

theorem applyPatch_preserves_type_symbol (r : DrawingRow) (patch : DrawingPatch)
    (now : ℤ) (htype : patch.type = none) (hsym : patch.symbol = none) :
    (applyPatch r patch now).type = r.type ∧
    (applyPatch r patch now).symbol = r.symbol := by
  obtain ⟨psym, ptype, ppoints, pstyle⟩ := patch
  simp only at htype hsym
  subst htype
  subst hsym
  cases ppoints <;> cases pstyle <;> simp [applyPatch]

/-- C3 (amended): the update endpoint changes `type` or `symbol` only when
the patch body explicitly contains those fields; for every accepted patch
without them — the only patches the client sends (points or style) — every
stored row keeps its type and symbol, and so does the returned row. -/
theorem updateDrawing_preserves_type_symbol (db : List DrawingRow) (id : ℤ)
    (patch : DrawingPatch) (now : ℤ) (db2 : List DrawingRow) (ret : DrawingRow)
    (htype : patch.type = none) (hsym : patch.symbol = none)
    (hok : updateDrawingHandler db id patch now = Except.ok (db2, ret)) :
    db2.map (fun r => (r.id, r.type, r.symbol)) =
      db.map (fun r => (r.id, r.type, r.symbol)) ∧
    (∀ r0, db.find? (fun r => r.id == id) = some r0 →
      ret.type = r0.type ∧ ret.symbol = r0.symbol) := by
  simp only [updateDrawingHandler] at hok
  by_cases hempty : patchIsEmpty patch = true
  · rw [if_pos hempty] at hok
    cases hok
  · rw [if_neg hempty] at hok
    cases hfind : db.find? (fun r => r.id == id) with
    | none =>
      rw [hfind] at hok
      cases hok
    | some r0 =>
      rw [hfind] at hok
      injection hok with hok2
      injection hok2 with hdb hret
      constructor
      · rw [← hdb]
        rw [List.map_map]
        apply List.map_congr_left
        intro r hr
        simp only [Function.comp_apply]
        by_cases hid : (r.id == id) = true
        · rw [if_pos hid]
          have hp := applyPatch_preserves_type_symbol r patch now htype hsym
          rw [applyPatch_id, hp.1, hp.2]
        · rw [if_neg hid]
      · intro r1 hr1
        have h2 : some r0 = some r1 := hr1
        injection h2 with h2
        subst h2
        have hp := applyPatch_preserves_type_symbol r0 patch now htype hsym
        rw [← hret]
        exact ⟨hp.1, hp.2⟩

/-- C3 witness: a points-only patch on the stored rectangle keeps id, type
and symbol of every row and of the returned row. -/
theorem updateDrawing_preserves_witness :
    ([{ rectRow with points := [⟨0, 150⟩], updatedAt := 9 }] :
        List DrawingRow).map (fun r => (r.id, r.type, r.symbol)) =
      [rectRow].map (fun r => (r.id, r.type, r.symbol)) ∧
    (∀ r0, [rectRow].find? (fun r => r.id == 3) = some r0 →
      ({ rectRow with points := [⟨0, 150⟩], updatedAt := 9 } : DrawingRow).type = r0.type ∧
      ({ rectRow with points := [⟨0, 150⟩], updatedAt := 9 } : DrawingRow).symbol = r0.symbol) :=
  updateDrawing_preserves_type_symbol [rectRow] 3
    ⟨none, none, some [⟨0, 150⟩], none⟩ 9
    [{ rectRow with points := [⟨0, 150⟩], updatedAt := 9 }]
    { rectRow with points := [⟨0, 150⟩], updatedAt := 9 }
    rfl rfl rfl

/-- C8: the sync cursor starts at max(twoYearsAgo, lastPersisted - step)
when positive prior data exists and at twoYearsAgo otherwise; each full
page advances the cursor to the last fetched openTime plus one step; and
the loop returns exactly on an empty page, a short page, or a cursor
at/past now — and is total (well-founded on the bars at/after the cursor). -/
theorem syncEngine_spec (upstream db : List Candle) (now : ℤ) (symbol : String)
    (i : Interval) (cursor : ℤ) (dbx : List Candle) (inserted : ℕ) :
    (∀ m, ((db.filter (fun c => c.symbol == symbol && c.interval == i)).map
        Candle.openTime).max? = some m → 0 < m →
      initialCursor db now symbol i =
        max (now - 2 * 365 * 24 * 60 * 60 * 1000) (m - intervalMs i)) ∧
    (db.filter (fun c => c.symbol == symbol && c.interval == i) = [] →
      initialCursor db now symbol i = now - 2 * 365 * 24 * 60 * 60 * 1000) ∧
    (syncHandler db upstream now symbol i =
      syncLoop upstream now i (initialCursor db now symbol i) db 0) ∧
    (¬ cursor < now →
      syncLoop upstream now i cursor dbx inserted = (dbx, inserted)) ∧
    (cursor < now → fetchKlines upstream cursor now 1000 = [] →
      syncLoop upstream now i cursor dbx inserted = (dbx, inserted)) ∧
    (fetchKlines upstream cursor now 1000 ≠ [] → cursor < now →
      (fetchKlines upstream cursor now 1000).length < 1000 →
      syncLoop upstream now i cursor dbx inserted =
        ((fetchKlines upstream cursor now 1000).foldl upsertIgnore dbx,
          inserted + (fetchKlines upstream cursor now 1000).length)) ∧
    (∀ hb : fetchKlines upstream cursor now 1000 ≠ [], cursor < now →
      ¬ (fetchKlines upstream cursor now 1000).length < 1000 →
      syncLoop upstream now i cursor dbx inserted =
        syncLoop upstream now i
          (((fetchKlines upstream cursor now 1000).getLast hb).openTime + intervalMs i)
          ((fetchKlines upstream cursor now 1000).foldl upsertIgnore dbx)
          (inserted + (fetchKlines upstream cursor now 1000).length)) := by
  refine ⟨?_, ?_, rfl, ?_, ?_, ?_, ?_⟩
  · intro m hmax hpos
    simp only [initialCursor, hmax]
    rw [if_pos hpos]
  · intro hfil
    simp only [initialCursor, hfil, List.map_nil, List.max?_nil]
    rw [if_neg (by omega)]
  · intro hnow
    rw [syncLoop, if_neg hnow]
  · intro hnow hb
    rw [syncLoop, if_pos hnow]
    simp only [dif_pos hb]
  · intro hb hnow hshort
    rw [syncLoop, if_pos hnow]
    simp only [dif_neg hb]
    rw [if_pos hshort]
  · intro hb hnow hfull
    rw [syncLoop, if_pos hnow]
    simp only [dif_neg hb]
    rw [if_neg hfull]

/-- C8 witness: concrete cursor initialization with one persisted bar, and
a concrete loop stop with the cursor at now. -/
theorem syncEngine_spec_witness :
    initialCursor [mkCandle 300000] 1000000 "BTCUSDT" Interval.i5m =
      max (1000000 - 2 * 365 * 24 * 60 * 60 * 1000) (300000 - intervalMs Interval.i5m) ∧
    initialCursor [] 1000000 "BTCUSDT" Interval.i5m =
      1000000 - 2 * 365 * 24 * 60 * 60 * 1000 ∧
    syncLoop [] 1000000 Interval.i5m 1000000 [] 0 = ([], 0) :=
  ⟨(syncEngine_spec [] [mkCandle 300000] 1000000 "BTCUSDT" Interval.i5m
      0 [] 0).1 300000 rfl (by omega),
    (syncEngine_spec [] [] 1000000 "BTCUSDT" Interval.i5m
      0 [] 0).2.1 rfl,
    (syncEngine_spec [] [] 1000000 "BTCUSDT" Interval.i5m
      1000000 [] 0).2.2.2.1 (by omega)⟩

/-- C1: after a first sync from an empty table, a second sync with the same
upstream data leaves the table unchanged (one row per key) but still
reports `inserted = 2`, because the handler counts every fetched bar —
including bars skipped by the duplicate-key upsert — not the rows actually
inserted; the claimed count of 0 for already-present rows does not hold. -/
theorem sync_inserted_miscount :
    syncHandler [] syncUpstream2 1000000 "BTCUSDT" Interval.i5m = (syncUpstream2, 2) ∧
    syncHandler syncUpstream2 syncUpstream2 1000000 "BTCUSDT" Interval.i5m =
      (syncUpstream2, 2) ∧
    (2 : ℕ) ≠ 0 := by
  refine ⟨?_, ?_, by omega⟩
  · rw [syncHandler, syncLoop]
    simp [initialCursor, fetchKlines, upsertIgnore, syncUpstream2, mkCandle, intervalMs]
  · rw [syncHandler, syncLoop]
    simp [initialCursor, fetchKlines, upsertIgnore, syncUpstream2, mkCandle, intervalMs]

end CryptoReplay
